import Mathlib

/-
Verification of the diff engine of the text-correction front end
(src module diffUtils: createTextDiff, getCharacterDiff, getWordDiff,
createInlineDiff, getDiffStats).

Strings are embedded as lists of Unicode characters (List Char), matching
the code-point-aware treatment the design requires for Chinese text.
The third-party alignment engine (diff-match-patch) is not part of the
repository sources; it is modelled from the spec, see diff_main below.
-/

namespace DiffUtils

/-- The three diff operation kinds of the DiffResult interface. -/
inductive DiffType where
  | equal
  | insert
  | delete
deriving DecidableEq, Repr

/-- DiffResult from diffUtils: a span with its kind, text and running index. -/
structure DiffResult where
  type : DiffType
  text : List Char
  index : Nat
deriving DecidableEq, Repr

/-- ProcessedDiff from diffUtils: the two per-side span lists plus flags. -/
structure ProcessedDiff where
  original : List DiffResult
  corrected : List DiffResult
  hasChanges : Bool
  changeCount : Nat
deriving DecidableEq, Repr

/-- One operation of the alignment produced by the engine: an operation
tag together with the text it covers (the pairs diff_main returns). -/
structure Diff where
  op : DiffType
  text : List Char
deriving DecidableEq, Repr

/-- Longest common prefix of two character lists. -/
def commonPrefix : List Char → List Char → List Char
  | a :: as, b :: bs => if a = b then a :: commonPrefix as bs else []
  | _, _ => []

/-- Modelled from the spec: the alignment engine, i.e. the third-party
diff-match-patch calls dmp.diff_main followed by dmp.diff_cleanupSemantic,
whose source is not part of this repository. Per the spec the engine returns
an ordered list of equal/insert/delete operations in which every input unit
of both strings is accounted for exactly once, no operation has empty text,
identical strings yield a single equal span covering the whole text, an
empty original with non-empty corrected yields a single insert (and the
mirror a single delete), and at each divergence point the delete precedes
the insert; the cleanup pass only regroups boundaries and prefers longer
contiguous runs. This model trims the longest common prefix and the longest
common suffix of the remainder and emits delete-then-insert for the
differing middle, which satisfies every one of those guarantees. -/
def diff_main (a b : List Char) : List Diff :=
  let p := commonPrefix a b
  let a1 := a.drop p.length
  let b1 := b.drop p.length
  let s := (commonPrefix a1.reverse b1.reverse).reverse
  let am := (a1.reverse.drop s.length).reverse
  let bm := (b1.reverse.drop s.length).reverse
  (if p.isEmpty then [] else [⟨DiffType.equal, p⟩])
    ++ (if am.isEmpty then [] else [⟨DiffType.delete, am⟩])
    ++ (if bm.isEmpty then [] else [⟨DiffType.insert, bm⟩])
    ++ (if s.isEmpty then [] else [⟨DiffType.equal, s⟩])

/-- Original-side projection of the alignment: the source loop in
createTextDiff pushes equal and delete spans with the running originalIndex,
which only equal and delete texts advance. -/
def origView : List Diff → Nat → List DiffResult
  | [], _ => []
  | ⟨DiffType.equal, t⟩ :: ds, i => ⟨DiffType.equal, t, i⟩ :: origView ds (i + t.length)
  | ⟨DiffType.delete, t⟩ :: ds, i => ⟨DiffType.delete, t, i⟩ :: origView ds (i + t.length)
  | ⟨DiffType.insert, _⟩ :: ds, i => origView ds i

/-- Corrected-side projection of the alignment: the source loop pushes equal
and insert spans with the running correctedIndex. -/
def corrView : List Diff → Nat → List DiffResult
  | [], _ => []
  | ⟨DiffType.equal, t⟩ :: ds, i => ⟨DiffType.equal, t, i⟩ :: corrView ds (i + t.length)
  | ⟨DiffType.insert, t⟩ :: ds, i => ⟨DiffType.insert, t, i⟩ :: corrView ds (i + t.length)
  | ⟨DiffType.delete, _⟩ :: ds, i => corrView ds i

/-- The changeCount accumulation of the createTextDiff loop: one increment
per delete or insert operation. -/
def countChanges : List Diff → Nat
  | [] => 0
  | ⟨DiffType.equal, _⟩ :: ds => countChanges ds
  | ⟨DiffType.delete, _⟩ :: ds => countChanges ds + 1
  | ⟨DiffType.insert, _⟩ :: ds => countChanges ds + 1

/-- createTextDiff from diffUtils: run the engine, then project the
alignment into the two views and the change flags. -/
def createTextDiff (originalText correctedText : List Char) : ProcessedDiff :=
  let diffs := diff_main originalText correctedText
  { original := origView diffs 0
    corrected := corrView diffs 0
    hasChanges := decide (0 < countChanges diffs)
    changeCount := countChanges diffs }

/-- getCharacterDiff from diffUtils simply delegates to createTextDiff. -/
def getCharacterDiff (originalText correctedText : List Char) : ProcessedDiff :=
  createTextDiff originalText correctedText

/-- Whitespace per the JavaScript regular-expression class backslash-s,
used by the split in getWordDiff. -/
def isWS (c : Char) : Bool :=
  c == ' ' || c == '\t' || c == '\n' || c == '\x0b' || c == '\x0c' || c == '\r' ||
  c == '\u00A0' || c == '\u1680' || (0x2000 ≤ c.val && c.val ≤ 0x200A) ||
  c == '\u2028' || c == '\u2029' || c == '\u202F' || c == '\u205F' ||
  c == '\u3000' || c == '\uFEFF'

/-- The split text.split on a captured whitespace-run group, as used by
getWordDiff: it returns the alternating (possibly empty) non-whitespace
segments and the maximal whitespace runs, in order, beginning and ending
with a non-whitespace segment. -/
def splitWS : List Char → List (List Char)
  | [] => [[]]
  | c :: cs =>
    let r := splitWS cs
    if isWS c then
      match r with
      | [] => [[], [c], []]
      | [s0] => [[], [c], s0]
      | s0 :: s1 :: rest =>
        if s0.isEmpty then [] :: (c :: s1) :: rest
        else [] :: [c] :: s0 :: s1 :: rest
    else
      match r with
      | [] => [[c]]
      | s0 :: rest => (c :: s0) :: rest

/-- The Array.prototype.join of getWordDiff: concatenate the segments with
the given separator between consecutive segments. -/
def joinSep (sep : List Char) : List (List Char) → List Char
  | [] => []
  | [x] => x
  | x :: xs => x ++ sep ++ joinSep sep xs

/-- The displayText of the getWordDiff loop: text.replace of every newline
by the empty string. -/
def displayText (t : List Char) : List Char :=
  t.filter (fun c => c != '\n')

/-- Original-side projection of the getWordDiff loop: spans are pushed only
when their displayText is non-empty; the running index advances by the
displayText length (unconditionally for equal, inside the guard for
delete), and insert operations leave this side untouched. -/
def wordOrigView : List Diff → Nat → List DiffResult
  | [], _ => []
  | ⟨DiffType.equal, t⟩ :: ds, i =>
    if (displayText t).isEmpty then wordOrigView ds (i + (displayText t).length)
    else ⟨DiffType.equal, displayText t, i⟩ :: wordOrigView ds (i + (displayText t).length)
  | ⟨DiffType.delete, t⟩ :: ds, i =>
    if (displayText t).isEmpty then wordOrigView ds i
    else ⟨DiffType.delete, displayText t, i⟩ :: wordOrigView ds (i + (displayText t).length)
  | ⟨DiffType.insert, _⟩ :: ds, i => wordOrigView ds i

/-- Corrected-side projection of the getWordDiff loop, mirror of
wordOrigView with insert in place of delete. -/
def wordCorrView : List Diff → Nat → List DiffResult
  | [], _ => []
  | ⟨DiffType.equal, t⟩ :: ds, i =>
    if (displayText t).isEmpty then wordCorrView ds (i + (displayText t).length)
    else ⟨DiffType.equal, displayText t, i⟩ :: wordCorrView ds (i + (displayText t).length)
  | ⟨DiffType.insert, t⟩ :: ds, i =>
    if (displayText t).isEmpty then wordCorrView ds i
    else ⟨DiffType.insert, displayText t, i⟩ :: wordCorrView ds (i + (displayText t).length)
  | ⟨DiffType.delete, _⟩ :: ds, i => wordCorrView ds i

/-- The changeCount accumulation of the getWordDiff loop: one increment per
delete or insert operation whose displayText is non-empty. -/
def wordCountChanges : List Diff → Nat
  | [] => 0
  | ⟨DiffType.equal, _⟩ :: ds => wordCountChanges ds
  | ⟨DiffType.delete, t⟩ :: ds =>
    wordCountChanges ds + (if (displayText t).isEmpty then 0 else 1)
  | ⟨DiffType.insert, t⟩ :: ds =>
    wordCountChanges ds + (if (displayText t).isEmpty then 0 else 1)

/-- getWordDiff from diffUtils: split both texts on captured whitespace
runs, join the pieces with newlines, diff the joined texts and project the
alignment with newline-stripped display texts. -/
def getWordDiff (originalText correctedText : List Char) : ProcessedDiff :=
  let originalWordText := joinSep ['\n'] (splitWS originalText)
  let correctedWordText := joinSep ['\n'] (splitWS correctedText)
  let diffs := diff_main originalWordText correctedWordText
  { original := wordOrigView diffs 0
    corrected := wordCorrView diffs 0
    hasChanges := decide (0 < wordCountChanges diffs)
    changeCount := wordCountChanges diffs }

/-- The createInlineDiff loop: one DiffResult per alignment operation, with
the index running cumulatively over all texts. -/
def inlineView : List Diff → Nat → List DiffResult
  | [], _ => []
  | ⟨op, t⟩ :: ds, i => ⟨op, t, i⟩ :: inlineView ds (i + t.length)

/-- createInlineDiff from diffUtils: the alignment in operation order with a
single running index. -/
def createInlineDiff (originalText correctedText : List Char) : List DiffResult :=
  inlineView (diff_main originalText correctedText) 0

/-- DiffStatistics returned by getDiffStats. Numbers are embedded as
rationals; accuracy carries the two-decimal rounded percentage. -/
structure DiffStats where
  insertions : Nat
  deletions : Nat
  changes : Nat
  accuracy : ℚ
deriving DecidableEq, Repr

/-- Math.round of JavaScript on a non-negative value: nearest integer with
ties rounded up. -/
def mathRound (q : ℚ) : ℤ := ⌊q + 1 / 2⌋

/-- getDiffStats from diffUtils: span counts per side, their sum, and the
accuracy percentage rounded to two decimals via Math.round. -/
def getDiffStats (diff : ProcessedDiff) : DiffStats :=
  let insertions := (diff.corrected.filter (fun d => d.type = DiffType.insert)).length
  let deletions := (diff.original.filter (fun d => d.type = DiffType.delete)).length
  let changes := insertions + deletions
  let totalOriginal : Nat := diff.original.foldl (fun sum d => sum + d.text.length) 0
  let accuracy : ℚ :=
    if 0 < totalOriginal then
      max 0 (((totalOriginal : ℚ) - (changes : ℚ)) / (totalOriginal : ℚ) * 100)
    else 100
  { insertions := insertions
    deletions := deletions
    changes := changes
    accuracy := (mathRound (accuracy * 100) : ℚ) / 100 }

/-- Concatenation of the span texts of a view, in order. -/
def concatTexts : List DiffResult → List Char
  | [] => []
  | r :: rs => r.text ++ concatTexts rs

/-- The original text covered by an alignment: texts of all operations that
are not insert, in order. -/
def origText : List Diff → List Char
  | [] => []
  | d :: ds => (if d.op = DiffType.insert then [] else d.text) ++ origText ds

/-- The corrected text covered by an alignment: texts of all operations that
are not delete, in order. -/
def corrText : List Diff → List Char
  | [] => []
  | d :: ds => (if d.op = DiffType.delete then [] else d.text) ++ corrText ds

@[simp]
theorem origText_nil : origText [] = [] := rfl

@[simp]
theorem origText_cons (d : Diff) (ds : List Diff) :
    origText (d :: ds) = (if d.op = DiffType.insert then [] else d.text) ++ origText ds := rfl

@[simp]
theorem corrText_nil : corrText [] = [] := rfl

@[simp]
theorem corrText_cons (d : Diff) (ds : List Diff) :
    corrText (d :: ds) = (if d.op = DiffType.delete then [] else d.text) ++ corrText ds := rfl

@[simp]
theorem origText_append (l1 l2 : List Diff) :
    origText (l1 ++ l2) = origText l1 ++ origText l2 := by
  induction l1 with
  | nil => simp
  | cons d ds ih => simp [ih]

@[simp]
theorem corrText_append (l1 l2 : List Diff) :
    corrText (l1 ++ l2) = corrText l1 ++ corrText l2 := by
  induction l1 with
  | nil => simp
  | cons d ds ih => simp [ih]

theorem commonPrefix_append_drop (a b : List Char) :
    commonPrefix a b ++ a.drop (commonPrefix a b).length = a := by
  induction a generalizing b with
  | nil => cases b <;> simp [commonPrefix]
  | cons x xs ih =>
    cases b with
    | nil => simp [commonPrefix]
    | cons y ys =>
      by_cases h : x = y
      · simp [commonPrefix, h, ih ys]
      · simp [commonPrefix, h]

theorem commonPrefix_append_drop_right (a b : List Char) :
    commonPrefix a b ++ b.drop (commonPrefix a b).length = b := by
  induction a generalizing b with
  | nil => cases b <;> simp [commonPrefix]
  | cons x xs ih =>
    cases b with
    | nil => simp [commonPrefix]
    | cons y ys =>
      by_cases h : x = y
      · simp [commonPrefix, h, ih ys]
      · simp [commonPrefix, h]

theorem commonPrefix_self (a : List Char) : commonPrefix a a = a := by
  induction a with
  | nil => rfl
  | cons x xs ih => simp [commonPrefix, ih]

@[simp]
theorem origText_eq_span (t : List Char) :
    origText (if t.isEmpty then [] else [⟨DiffType.equal, t⟩]) = t := by
  by_cases h : t.isEmpty
  · simp_all [List.isEmpty_iff]
  · simp [h, origText]

@[simp]
theorem origText_del_span (t : List Char) :
    origText (if t.isEmpty then [] else [⟨DiffType.delete, t⟩]) = t := by
  by_cases h : t.isEmpty
  · simp_all [List.isEmpty_iff]
  · simp [h, origText]

@[simp]
theorem origText_ins_span (t : List Char) :
    origText (if t.isEmpty then [] else [⟨DiffType.insert, t⟩]) = [] := by
  by_cases h : t.isEmpty <;> simp [h, origText]

@[simp]
theorem corrText_eq_span (t : List Char) :
    corrText (if t.isEmpty then [] else [⟨DiffType.equal, t⟩]) = t := by
  by_cases h : t.isEmpty
  · simp_all [List.isEmpty_iff]
  · simp [h, corrText]

@[simp]
theorem corrText_del_span (t : List Char) :
    corrText (if t.isEmpty then [] else [⟨DiffType.delete, t⟩]) = [] := by
  by_cases h : t.isEmpty <;> simp [h, corrText]

@[simp]
theorem corrText_ins_span (t : List Char) :
    corrText (if t.isEmpty then [] else [⟨DiffType.insert, t⟩]) = t := by
  by_cases h : t.isEmpty
  · simp_all [List.isEmpty_iff]
  · simp [h, corrText]

theorem mid_suffix_left (x y : List Char) :
    (x.reverse.drop (commonPrefix x.reverse y.reverse).reverse.length).reverse
      ++ (commonPrefix x.reverse y.reverse).reverse = x := by
  rw [List.length_reverse, ← List.reverse_append, commonPrefix_append_drop,
    List.reverse_reverse]

theorem mid_suffix_right (x y : List Char) :
    (y.reverse.drop (commonPrefix x.reverse y.reverse).reverse.length).reverse
      ++ (commonPrefix x.reverse y.reverse).reverse = y := by
  rw [List.length_reverse, ← List.reverse_append, commonPrefix_append_drop_right,
    List.reverse_reverse]

/-- The original text of the modelled alignment is the first input. -/
theorem origText_diff_main (a b : List Char) : origText (diff_main a b) = a := by
  have key := mid_suffix_left (a.drop (commonPrefix a b).length)
    (b.drop (commonPrefix a b).length)
  unfold diff_main
  simp only [origText_append, origText_eq_span, origText_del_span, origText_ins_span,
    List.nil_append, List.append_nil]
  rw [List.append_assoc, key, commonPrefix_append_drop]

/-- The corrected text of the modelled alignment is the second input. -/
theorem corrText_diff_main (a b : List Char) : corrText (diff_main a b) = b := by
  have key := mid_suffix_right (a.drop (commonPrefix a b).length)
    (b.drop (commonPrefix a b).length)
  unfold diff_main
  simp only [corrText_append, corrText_eq_span, corrText_del_span, corrText_ins_span,
    List.nil_append, List.append_nil]
  rw [List.append_assoc, key, commonPrefix_append_drop_right]

@[simp]
theorem concatTexts_nil : concatTexts [] = [] := rfl

@[simp]
theorem concatTexts_cons (r : DiffResult) (rs : List DiffResult) :
    concatTexts (r :: rs) = r.text ++ concatTexts rs := rfl

/-- The original-side view reconstructs the original text of the alignment,
whatever the starting index. -/
theorem concatTexts_origView (ds : List Diff) (i : Nat) :
    concatTexts (origView ds i) = origText ds := by
  induction ds generalizing i with
  | nil => rfl
  | cons d ds ih =>
    obtain ⟨op, t⟩ := d
    cases op <;> simp [origView, ih]

/-- The corrected-side view reconstructs the corrected text of the
alignment, whatever the starting index. -/
theorem concatTexts_corrView (ds : List Diff) (i : Nat) :
    concatTexts (corrView ds i) = corrText ds := by
  induction ds generalizing i with
  | nil => rfl
  | cons d ds ih =>
    obtain ⟨op, t⟩ := d
    cases op <;> simp [corrView, ih]

/-- Keeping only equal and delete spans of the inline view reconstructs the
original text of the alignment. -/
theorem concatTexts_inline_orig (ds : List Diff) (i : Nat) :
    concatTexts ((inlineView ds i).filter
      (fun r => r.type == DiffType.equal || r.type == DiffType.delete)) = origText ds := by
  induction ds generalizing i with
  | nil => rfl
  | cons d ds ih =>
    obtain ⟨op, t⟩ := d
    cases op <;> simp [inlineView, List.filter_cons, ih]

/-- Keeping only equal and insert spans of the inline view reconstructs the
corrected text of the alignment. -/
theorem concatTexts_inline_corr (ds : List Diff) (i : Nat) :
    concatTexts ((inlineView ds i).filter
      (fun r => r.type == DiffType.equal || r.type == DiffType.insert)) = corrText ds := by
  induction ds generalizing i with
  | nil => rfl
  | cons d ds ih =>
    obtain ⟨op, t⟩ := d
    cases op <;> simp [inlineView, List.filter_cons, ih]

/-- Claim C1: character-granularity round trip. For all strings a and b, the
original-side view of createTextDiff a b concatenates exactly to a and the
corrected-side view concatenates exactly to b; in the createInlineDiff span
list, the equal and delete spans concatenate to a and the equal and insert
spans concatenate to b. -/
theorem createTextDiff_roundtrip (a b : List Char) :
    concatTexts (createTextDiff a b).original = a ∧
    concatTexts (createTextDiff a b).corrected = b ∧
    concatTexts ((createInlineDiff a b).filter
      (fun r => r.type == DiffType.equal || r.type == DiffType.delete)) = a ∧
    concatTexts ((createInlineDiff a b).filter
      (fun r => r.type == DiffType.equal || r.type == DiffType.insert)) = b := by
  refine ⟨?_, ?_, ?_, ?_⟩
  · simpa [createTextDiff, concatTexts_origView] using origText_diff_main a b
  · simpa [createTextDiff, concatTexts_corrView] using corrText_diff_main a b
  · simpa [createInlineDiff, concatTexts_inline_orig] using origText_diff_main a b
  · simpa [createInlineDiff, concatTexts_inline_corr] using corrText_diff_main a b


@[simp]
theorem displayText_nil : displayText [] = [] := rfl

@[simp]
theorem displayText_append (x y : List Char) :
    displayText (x ++ y) = displayText x ++ displayText y := by
  simp [displayText]

@[simp]
theorem displayText_newline : displayText ['\n'] = [] := rfl

/-- Concatenating the split segments of a text recovers the text. -/
theorem join_splitWS (l : List Char) : (splitWS l).flatten = l := by
  induction l with
  | nil => rfl
  | cons c cs ih =>
    rw [splitWS]
    by_cases hc : isWS c
    · simp only [hc, if_true]
      match h : splitWS cs with
      | [] => simp [h] at ih; simp [ih]
      | [s0] =>
        simp [h] at ih
        simp [ih]
      | s0 :: s1 :: rest =>
        by_cases h0 : s0.isEmpty
        · have h0e : s0 = [] := List.isEmpty_iff.mp h0
          simp [h, h0e] at ih
          simp [h0, h0e, ih]
        · simp [h] at ih
          simp [h0, ih]
    · simp only [hc, if_false]
      match h : splitWS cs with
      | [] => simp [h] at ih; simp [ih]
      | s0 :: rest =>
        simp [h] at ih
        simp [ih]

/-- Stripping the separators of a newline join leaves the stripped
concatenation of the segments. -/
theorem displayText_joinSep (xs : List (List Char)) :
    displayText (joinSep ['\n'] xs) = displayText xs.flatten := by
  match xs with
  | [] => rfl
  | [x] => simp [joinSep]
  | x :: y :: rest =>
    have ih := displayText_joinSep (y :: rest)
    simp only [joinSep, displayText_append, displayText_newline] at ih ⊢
    simp [ih]

/-- A text without newlines is unchanged by the newline strip. -/
theorem displayText_eq_self (l : List Char) (h : ¬ '\n' ∈ l) : displayText l = l := by
  apply List.filter_eq_self.mpr
  intro c hc
  have hne : c ≠ '\n' := fun he => h (he ▸ hc)
  simpa using hne

/-- The word original-side view concatenates to the newline-stripped
original text of the alignment, whatever the starting index. -/
theorem concatTexts_wordOrigView (ds : List Diff) (i : Nat) :
    concatTexts (wordOrigView ds i) = displayText (origText ds) := by
  induction ds generalizing i with
  | nil => rfl
  | cons d ds ih =>
    obtain ⟨op, t⟩ := d
    cases op with
    | equal =>
      by_cases h : (displayText t).isEmpty
      · have he : displayText t = [] := List.isEmpty_iff.mp h
        simp [wordOrigView, h, he, ih]
      · simp [wordOrigView, h, ih]
    | insert => simp [wordOrigView, ih]
    | delete =>
      by_cases h : (displayText t).isEmpty
      · have he : displayText t = [] := List.isEmpty_iff.mp h
        simp [wordOrigView, h, he, ih]
      · simp [wordOrigView, h, ih]

/-- The word corrected-side view concatenates to the newline-stripped
corrected text of the alignment, whatever the starting index. -/
theorem concatTexts_wordCorrView (ds : List Diff) (i : Nat) :
    concatTexts (wordCorrView ds i) = displayText (corrText ds) := by
  induction ds generalizing i with
  | nil => rfl
  | cons d ds ih =>
    obtain ⟨op, t⟩ := d
    cases op with
    | equal =>
      by_cases h : (displayText t).isEmpty
      · have he : displayText t = [] := List.isEmpty_iff.mp h
        simp [wordCorrView, h, he, ih]
      · simp [wordCorrView, h, ih]
    | delete => simp [wordCorrView, ih]
    | insert =>
      by_cases h : (displayText t).isEmpty
      · have he : displayText t = [] := List.isEmpty_iff.mp h
        simp [wordCorrView, h, he, ih]
      · simp [wordCorrView, h, ih]

/-- Claim C2, counterexample: the word-granularity diff is not lossless on
every input. For the newline-containing text x-newline-y used as both the
original and the corrected input, the original-side view reconstructs xy,
so the newline run is lost. -/
theorem getWordDiff_not_lossless :
    concatTexts (getWordDiff ['x', '\n', 'y'] ['x', '\n', 'y']).original
      ≠ ['x', '\n', 'y'] := by
  decide

/-- Claim C2, amended: for all strings a and b that contain no newline
character, getWordDiff a b is lossless — concatenating the text of the
original-side view spans in order equals a exactly, and concatenating the
corrected-side view spans equals b exactly, including every whitespace run
(in particular for a = "a b", b = "a  b"). -/
theorem getWordDiff_roundtrip (a b : List Char)
    (ha : ¬ '\n' ∈ a) (hb : ¬ '\n' ∈ b) :
    concatTexts (getWordDiff a b).original = a ∧
    concatTexts (getWordDiff a b).corrected = b := by
  constructor
  · show concatTexts (wordOrigView (diff_main (joinSep ['\n'] (splitWS a))
      (joinSep ['\n'] (splitWS b))) 0) = a
    rw [concatTexts_wordOrigView, origText_diff_main, displayText_joinSep,
      join_splitWS, displayText_eq_self a ha]
  · show concatTexts (wordCorrView (diff_main (joinSep ['\n'] (splitWS a))
      (joinSep ['\n'] (splitWS b))) 0) = b
    rw [concatTexts_wordCorrView, corrText_diff_main, displayText_joinSep,
      join_splitWS, displayText_eq_self b hb]

/-- Claim C2, witness: the amended round trip at the whitespace-preservation
pair of the spec, original "a b" and corrected "a  b". -/
theorem getWordDiff_roundtrip_witness :
    concatTexts (getWordDiff ['a', ' ', 'b'] ['a', ' ', ' ', 'b']).original
        = ['a', ' ', 'b'] ∧
    concatTexts (getWordDiff ['a', ' ', 'b'] ['a', ' ', ' ', 'b']).corrected
        = ['a', ' ', ' ', 'b'] :=
  getWordDiff_roundtrip ['a', ' ', 'b'] ['a', ' ', ' ', 'b']
    (by decide) (by decide)

/-- The modelled alignment of a text with itself is a single equal
operation when the text is non-empty. -/
theorem diff_main_self (s : List Char) (h : s ≠ []) :
    diff_main s s = [⟨DiffType.equal, s⟩] := by
  unfold diff_main
  rw [commonPrefix_self]
  simp [List.drop_length, commonPrefix, List.isEmpty_iff, h]

/-- Claim C4, counterexample: createTextDiff of the empty string with
itself returns empty views, not a single equal span of empty text. -/
theorem createTextDiff_empty_self :
    ¬ ∃ r : DiffResult, r.type = DiffType.equal ∧
      (createTextDiff ([] : List Char) ([] : List Char)).original = [r] := by
  rintro ⟨r, -, h⟩
  have hemp : (createTextDiff ([] : List Char) ([] : List Char)).original = [] := by
    decide
  rw [hemp] at h
  exact List.noConfusion h

/-- Claim C4, amended: for every non-empty string s, createTextDiff s s has
an original-side view and a corrected-side view each consisting of exactly
one equal span whose text is s, with hasChanges = false and
changeCount = 0 (for the empty string both views are empty, with the same
flags). -/
theorem createTextDiff_identity (s : List Char) (h : s ≠ []) :
    (createTextDiff s s).original = [⟨DiffType.equal, s, 0⟩] ∧
    (createTextDiff s s).corrected = [⟨DiffType.equal, s, 0⟩] ∧
    (createTextDiff s s).hasChanges = false ∧
    (createTextDiff s s).changeCount = 0 := by
  have hd := diff_main_self s h
  unfold createTextDiff
  rw [hd]
  refine ⟨rfl, rfl, rfl, rfl⟩

/-- Claim C4, witness: the amended identity at the two-character string ab. -/
theorem createTextDiff_identity_witness :
    (createTextDiff ['a', 'b'] ['a', 'b']).original
        = [⟨DiffType.equal, ['a', 'b'], 0⟩] ∧
    (createTextDiff ['a', 'b'] ['a', 'b']).corrected
        = [⟨DiffType.equal, ['a', 'b'], 0⟩] ∧
    (createTextDiff ['a', 'b'] ['a', 'b']).hasChanges = false ∧
    (createTextDiff ['a', 'b'] ['a', 'b']).changeCount = 0 :=
  createTextDiff_identity ['a', 'b'] (by decide)

/-- Claim C5: the single-character Chinese substitution scenario. The
original-side view is equal, delete, equal; the corrected-side view is
equal, insert, equal, with the flanking equal runs and the single-character
delete and insert the spec names, and getDiffStats reports changes = 2. -/
theorem createTextDiff_chinese_scenario :
    (createTextDiff ['這', '是', '一', '个', '測', '試', '文', '檔']
        ['這', '是', '一', '個', '測', '試', '文', '檔']).original
      = [⟨DiffType.equal, ['這', '是', '一'], 0⟩,
         ⟨DiffType.delete, ['个'], 3⟩,
         ⟨DiffType.equal, ['測', '試', '文', '檔'], 4⟩] ∧
    (createTextDiff ['這', '是', '一', '个', '測', '試', '文', '檔']
        ['這', '是', '一', '個', '測', '試', '文', '檔']).corrected
      = [⟨DiffType.equal, ['這', '是', '一'], 0⟩,
         ⟨DiffType.insert, ['個'], 3⟩,
         ⟨DiffType.equal, ['測', '試', '文', '檔'], 4⟩] ∧
    (getDiffStats (createTextDiff ['這', '是', '一', '个', '測', '試', '文', '檔']
        ['這', '是', '一', '個', '測', '試', '文', '檔'])).changes = 2 := by
  refine ⟨by decide, by decide, by decide⟩

theorem list_foldl_add_length (rs : List DiffResult) (n : Nat) :
    rs.foldl (fun sum d => sum + d.text.length) n
      = n + (rs.map (fun r => r.text.length)).sum := by
  induction rs generalizing n with
  | nil => simp
  | cons r rs ih => simp [ih]; omega

theorem mathRound_100 : mathRound ((100 : ℚ) * 100) = 10000 := by
  unfold mathRound
  rw [Int.floor_eq_iff]
  constructor <;> norm_num

/-- The accuracy field of getDiffStats written with countP and map-sum in
place of the filter and foldl of the source. -/
theorem getDiffStats_accuracy (d : ProcessedDiff) :
    (getDiffStats d).accuracy =
      (if (d.original.map (fun r => r.text.length)).sum = 0 then (100 : ℚ)
       else (mathRound ((max 0 (((((d.original.map (fun r => r.text.length)).sum : Nat) : ℚ)
              - ((d.corrected.countP (fun r => r.type = DiffType.insert)
                  + d.original.countP (fun r => r.type = DiffType.delete) : Nat) : ℚ))
            / (((d.original.map (fun r => r.text.length)).sum : Nat) : ℚ) * 100)) * 100) : ℚ)
          / 100) := by
  unfold getDiffStats
  simp only [List.countP_eq_length_filter, list_foldl_add_length, Nat.zero_add]
  by_cases h : (d.original.map (fun r => r.text.length)).sum = 0
  · rw [if_pos h, if_neg (by omega : ¬ 0 < (d.original.map (fun r => r.text.length)).sum)]
    rw [mathRound_100]
    norm_num
  · rw [if_neg h, if_pos (Nat.pos_of_ne_zero h)]

/-- Claim C3: statistics correctness. For every ProcessedDiff d,
getDiffStats d reports insertions as the number of insert spans of the
corrected-side view, deletions as the number of delete spans of the
original-side view, changes as their sum, and accuracy as 100 when the
total original character length is zero and otherwise
max 0 ((length - changes) / length * 100) rounded to two decimal places;
in particular for createTextDiff of abc and abd, changes = 2 and
accuracy = 33.33. -/
theorem getDiffStats_spec (d : ProcessedDiff) :
    (getDiffStats d).insertions = d.corrected.countP (fun r => r.type = DiffType.insert) ∧
    (getDiffStats d).deletions = d.original.countP (fun r => r.type = DiffType.delete) ∧
    (getDiffStats d).changes = (getDiffStats d).insertions + (getDiffStats d).deletions ∧
    (getDiffStats d).accuracy =
      (if (d.original.map (fun r => r.text.length)).sum = 0 then (100 : ℚ)
       else (mathRound ((max 0 (((((d.original.map (fun r => r.text.length)).sum : Nat) : ℚ)
              - ((d.corrected.countP (fun r => r.type = DiffType.insert)
                  + d.original.countP (fun r => r.type = DiffType.delete) : Nat) : ℚ))
            / (((d.original.map (fun r => r.text.length)).sum : Nat) : ℚ) * 100)) * 100) : ℚ)
          / 100) ∧
    (getDiffStats (createTextDiff ['a', 'b', 'c'] ['a', 'b', 'd'])).changes = 2 ∧
    (getDiffStats (createTextDiff ['a', 'b', 'c'] ['a', 'b', 'd'])).accuracy = 3333 / 100 := by
  refine ⟨?_, ?_, rfl, getDiffStats_accuracy d, by decide, ?_⟩
  · simp [getDiffStats, List.countP_eq_length_filter]
  · simp [getDiffStats, List.countP_eq_length_filter]
  · have hsum : (((createTextDiff ['a', 'b', 'c'] ['a', 'b', 'd']).original.map
        (fun r => r.text.length)).sum) = 3 := by decide
    have hcnt : ((createTextDiff ['a', 'b', 'c'] ['a', 'b', 'd']).corrected.countP
          (fun r => r.type = DiffType.insert)
        + (createTextDiff ['a', 'b', 'c'] ['a', 'b', 'd']).original.countP
          (fun r => r.type = DiffType.delete)) = 2 := by decide
    rw [getDiffStats_accuracy, hsum, hcnt]
    have hfloor : mathRound ((max 0 ((((3 : Nat) : ℚ) - ((2 : Nat) : ℚ))
        / ((3 : Nat) : ℚ) * 100)) * 100) = 3333 := by
      unfold mathRound
      rw [max_eq_right (by norm_num)]
      rw [Int.floor_eq_iff]
      constructor <;> norm_num
    rw [if_neg (by norm_num), hfloor]
    norm_num

/-- Offsets of a span list are the running character count from a given
start: each span carries the current count and advances it by its text
length. -/
def offsetsFrom : Nat → List DiffResult → Prop
  | _, [] => True
  | i, r :: rs => r.index = i ∧ offsetsFrom (i + r.text.length) rs

/-- The offset invariant of a span list: every span's index equals the sum
of the text lengths of all spans preceding it in that same list. -/
def offsetInvariant (rs : List DiffResult) : Prop :=
  ∀ k, (h : k < rs.length) →
    (rs.get ⟨k, h⟩).index = ((rs.take k).map (fun r => r.text.length)).sum

theorem offsetsFrom_invariant (rs : List DiffResult) (i : Nat)
    (hof : offsetsFrom i rs) :
    ∀ k, (h : k < rs.length) →
      (rs.get ⟨k, h⟩).index = i + ((rs.take k).map (fun r => r.text.length)).sum := by
  induction rs generalizing i with
  | nil => intro k h; exact absurd h (by simp)
  | cons r rs ih =>
    obtain ⟨hr, hrest⟩ := hof
    intro k h
    cases k with
    | zero => simpa using hr
    | succ k =>
      have := ih (i + r.text.length) hrest k (by simpa using Nat.lt_of_succ_lt_succ h)
      simp only [List.get_cons_succ, List.take_succ_cons, List.map_cons, List.sum_cons]
      omega

theorem offsetsFrom_origView (ds : List Diff) (i : Nat) :
    offsetsFrom i (origView ds i) := by
  induction ds generalizing i with
  | nil => trivial
  | cons d ds ih =>
    obtain ⟨op, t⟩ := d
    cases op with
    | equal => exact ⟨rfl, ih (i + t.length)⟩
    | delete => exact ⟨rfl, ih (i + t.length)⟩
    | insert => exact ih i

theorem offsetsFrom_corrView (ds : List Diff) (i : Nat) :
    offsetsFrom i (corrView ds i) := by
  induction ds generalizing i with
  | nil => trivial
  | cons d ds ih =>
    obtain ⟨op, t⟩ := d
    cases op with
    | equal => exact ⟨rfl, ih (i + t.length)⟩
    | insert => exact ⟨rfl, ih (i + t.length)⟩
    | delete => exact ih i

theorem offsetsFrom_wordOrigView (ds : List Diff) (i : Nat) :
    offsetsFrom i (wordOrigView ds i) := by
  induction ds generalizing i with
  | nil => trivial
  | cons d ds ih =>
    obtain ⟨op, t⟩ := d
    cases op with
    | equal =>
      by_cases h : (displayText t).isEmpty
      · rw [wordOrigView, if_pos h]
        have he : i + (displayText t).length = i := by
          simp [List.isEmpty_iff.mp h]
        rw [he]
        exact ih i
      · rw [wordOrigView, if_neg h]
        exact ⟨rfl, ih (i + (displayText t).length)⟩
    | delete =>
      by_cases h : (displayText t).isEmpty
      · rw [wordOrigView, if_pos h]
        exact ih i
      · rw [wordOrigView, if_neg h]
        exact ⟨rfl, ih (i + (displayText t).length)⟩
    | insert => exact ih i

theorem offsetsFrom_wordCorrView (ds : List Diff) (i : Nat) :
    offsetsFrom i (wordCorrView ds i) := by
  induction ds generalizing i with
  | nil => trivial
  | cons d ds ih =>
    obtain ⟨op, t⟩ := d
    cases op with
    | equal =>
      by_cases h : (displayText t).isEmpty
      · rw [wordCorrView, if_pos h]
        have he : i + (displayText t).length = i := by
          simp [List.isEmpty_iff.mp h]
        rw [he]
        exact ih i
      · rw [wordCorrView, if_neg h]
        exact ⟨rfl, ih (i + (displayText t).length)⟩
    | insert =>
      by_cases h : (displayText t).isEmpty
      · rw [wordCorrView, if_pos h]
        exact ih i
      · rw [wordCorrView, if_neg h]
        exact ⟨rfl, ih (i + (displayText t).length)⟩
    | delete => exact ih i

theorem offsetsFrom_inlineView (ds : List Diff) (i : Nat) :
    offsetsFrom i (inlineView ds i) := by
  induction ds generalizing i with
  | nil => trivial
  | cons d ds ih =>
    obtain ⟨op, t⟩ := d
    exact ⟨rfl, ih (i + t.length)⟩

theorem offsetsFrom_zero_invariant (rs : List DiffResult)
    (hof : offsetsFrom 0 rs) : offsetInvariant rs := by
  intro k h
  simpa using offsetsFrom_invariant rs 0 hof k h

/-- Claim C6: offset invariant. In every span list produced by
createTextDiff, getWordDiff or createInlineDiff, the index of each span
equals the sum of the text lengths of the spans preceding it in that same
list: original-side offsets ignore insert spans, corrected-side offsets
ignore delete spans, and the inline offsets run cumulatively over all
spans. -/
theorem diff_offset_invariant (a b : List Char) :
    offsetInvariant (createTextDiff a b).original ∧
    offsetInvariant (createTextDiff a b).corrected ∧
    offsetInvariant (getWordDiff a b).original ∧
    offsetInvariant (getWordDiff a b).corrected ∧
    offsetInvariant (createInlineDiff a b) := by
  refine ⟨?_, ?_, ?_, ?_, ?_⟩
  · exact offsetsFrom_zero_invariant _ (offsetsFrom_origView _ 0)
  · exact offsetsFrom_zero_invariant _ (offsetsFrom_corrView _ 0)
  · exact offsetsFrom_zero_invariant _ (offsetsFrom_wordOrigView _ 0)
  · exact offsetsFrom_zero_invariant _ (offsetsFrom_wordCorrView _ 0)
  · exact offsetsFrom_zero_invariant _ (offsetsFrom_inlineView _ 0)

theorem countChanges_eq_countP (ds : List Diff) (i j : Nat) :
    countChanges ds
      = (origView ds i).countP (fun r => r.type ≠ DiffType.equal)
        + (corrView ds j).countP (fun r => r.type ≠ DiffType.equal) := by
  induction ds generalizing i j with
  | nil => rfl
  | cons d ds ih =>
    obtain ⟨op, t⟩ := d
    cases op with
    | equal =>
      simp [origView, corrView, countChanges, List.countP_cons, ih (i + t.length) (j + t.length)]
    | delete =>
      simp [origView, corrView, countChanges, List.countP_cons, ih (i + t.length) j]
      omega
    | insert =>
      simp [origView, corrView, countChanges, List.countP_cons, ih i (j + t.length)]
      omega

theorem wordCountChanges_eq_countP (ds : List Diff) (i j : Nat) :
    wordCountChanges ds
      = (wordOrigView ds i).countP (fun r => r.type ≠ DiffType.equal)
        + (wordCorrView ds j).countP (fun r => r.type ≠ DiffType.equal) := by
  induction ds generalizing i j with
  | nil => rfl
  | cons d ds ih =>
    obtain ⟨op, t⟩ := d
    cases op with
    | equal =>
      by_cases h : (displayText t).isEmpty
      · simp [wordOrigView, wordCorrView, wordCountChanges, h,
          ih (i + (displayText t).length) (j + (displayText t).length)]
      · simp [wordOrigView, wordCorrView, wordCountChanges, h, List.countP_cons,
          ih (i + (displayText t).length) (j + (displayText t).length)]
    | delete =>
      by_cases h : (displayText t).isEmpty
      · simp [wordOrigView, wordCorrView, wordCountChanges, h, ih i j]
      · simp [wordOrigView, wordCorrView, wordCountChanges, h, List.countP_cons,
          ih (i + (displayText t).length) j]
        omega
    | insert =>
      by_cases h : (displayText t).isEmpty
      · simp [wordOrigView, wordCorrView, wordCountChanges, h, ih i j]
      · simp [wordOrigView, wordCorrView, wordCountChanges, h, List.countP_cons,
          ih i (j + (displayText t).length)]
        omega

/-- Claim C7: change flags. For createTextDiff and getWordDiff, hasChanges
is true exactly when some insert or delete span exists in the original-side
or corrected-side view, and changeCount equals the total number of such
non-equal spans across the two views (counting spans, not characters). -/
theorem diff_change_flags (a b : List Char) :
    ((createTextDiff a b).hasChanges = true ↔
      ((∃ r ∈ (createTextDiff a b).original, r.type ≠ DiffType.equal) ∨
       (∃ r ∈ (createTextDiff a b).corrected, r.type ≠ DiffType.equal))) ∧
    (createTextDiff a b).changeCount
      = (createTextDiff a b).original.countP (fun r => r.type ≠ DiffType.equal)
        + (createTextDiff a b).corrected.countP (fun r => r.type ≠ DiffType.equal) ∧
    ((getWordDiff a b).hasChanges = true ↔
      ((∃ r ∈ (getWordDiff a b).original, r.type ≠ DiffType.equal) ∨
       (∃ r ∈ (getWordDiff a b).corrected, r.type ≠ DiffType.equal))) ∧
    (getWordDiff a b).changeCount
      = (getWordDiff a b).original.countP (fun r => r.type ≠ DiffType.equal)
        + (getWordDiff a b).corrected.countP (fun r => r.type ≠ DiffType.equal) := by
  refine ⟨?_, ?_, ?_, ?_⟩
  · show decide (0 < countChanges (diff_main a b)) = true ↔ _
    rw [decide_eq_true_eq, countChanges_eq_countP (diff_main a b) 0 0]
    have hsplit : 0 < (origView (diff_main a b) 0).countP (fun r => r.type ≠ DiffType.equal)
          + (corrView (diff_main a b) 0).countP (fun r => r.type ≠ DiffType.equal)
        ↔ 0 < (origView (diff_main a b) 0).countP (fun r => r.type ≠ DiffType.equal)
          ∨ 0 < (corrView (diff_main a b) 0).countP (fun r => r.type ≠ DiffType.equal) := by
      omega
    rw [hsplit, List.countP_pos_iff, List.countP_pos_iff]
    simp [createTextDiff]
  · exact countChanges_eq_countP (diff_main a b) 0 0
  · show decide (0 < wordCountChanges _) = true ↔ _
    rw [decide_eq_true_eq,
      wordCountChanges_eq_countP (diff_main (joinSep ['\n'] (splitWS a))
        (joinSep ['\n'] (splitWS b))) 0 0]
    have hsplit : ∀ m n : Nat, 0 < m + n ↔ 0 < m ∨ 0 < n := by omega
    rw [hsplit, List.countP_pos_iff, List.countP_pos_iff]
    simp [getWordDiff]
  · exact wordCountChanges_eq_countP (diff_main (joinSep ['\n'] (splitWS a))
      (joinSep ['\n'] (splitWS b))) 0 0

/-- Claim C8: determinism and idempotence. The three diff functions are
pure functions of their explicit arguments: equal argument pairs give
structurally identical results, spans, order and offsets included. -/
theorem diff_deterministic (a b a2 b2 : List Char) (ha : a = a2) (hb : b = b2) :
    createTextDiff a b = createTextDiff a2 b2 ∧
    getWordDiff a b = getWordDiff a2 b2 ∧
    createInlineDiff a b = createInlineDiff a2 b2 := by
  subst ha
  subst hb
  exact ⟨rfl, rfl, rfl⟩

/-- Claim C8, witness: determinism at a concrete argument pair. -/
theorem diff_deterministic_witness :
    createTextDiff ['a'] ['b'] = createTextDiff ['a'] ['b'] ∧
    getWordDiff ['a'] ['b'] = getWordDiff ['a'] ['b'] ∧
    createInlineDiff ['a'] ['b'] = createInlineDiff ['a'] ['b'] :=
  diff_deterministic ['a'] ['b'] ['a'] ['b'] rfl rfl

/-- Texts of the equal operations of an alignment, in order. -/
def equalTexts : List Diff → List (List Char)
  | [] => []
  | ⟨DiffType.equal, t⟩ :: ds => t :: equalTexts ds
  | ⟨DiffType.delete, _⟩ :: ds => equalTexts ds
  | ⟨DiffType.insert, _⟩ :: ds => equalTexts ds

/-- Newline-stripped texts of the equal operations whose displayText is
non-empty, in order. -/
def wordEqualTexts : List Diff → List (List Char)
  | [] => []
  | ⟨DiffType.equal, t⟩ :: ds =>
    if (displayText t).isEmpty then wordEqualTexts ds
    else displayText t :: wordEqualTexts ds
  | ⟨DiffType.delete, _⟩ :: ds => wordEqualTexts ds
  | ⟨DiffType.insert, _⟩ :: ds => wordEqualTexts ds

theorem origView_equalTexts (ds : List Diff) (i : Nat) :
    ((origView ds i).filter (fun r => r.type = DiffType.equal)).map (fun r => r.text)
      = equalTexts ds := by
  induction ds generalizing i with
  | nil => rfl
  | cons d ds ih =>
    obtain ⟨op, t⟩ := d
    cases op <;> simp [origView, equalTexts, List.filter_cons, ih]

theorem corrView_equalTexts (ds : List Diff) (i : Nat) :
    ((corrView ds i).filter (fun r => r.type = DiffType.equal)).map (fun r => r.text)
      = equalTexts ds := by
  induction ds generalizing i with
  | nil => rfl
  | cons d ds ih =>
    obtain ⟨op, t⟩ := d
    cases op <;> simp [corrView, equalTexts, List.filter_cons, ih]

theorem wordOrigView_equalTexts (ds : List Diff) (i : Nat) :
    ((wordOrigView ds i).filter (fun r => r.type = DiffType.equal)).map (fun r => r.text)
      = wordEqualTexts ds := by
  induction ds generalizing i with
  | nil => rfl
  | cons d ds ih =>
    obtain ⟨op, t⟩ := d
    cases op with
    | equal =>
      by_cases h : (displayText t).isEmpty <;>
        simp [wordOrigView, wordEqualTexts, h, List.filter_cons, ih]
    | delete =>
      by_cases h : (displayText t).isEmpty <;>
        simp [wordOrigView, wordEqualTexts, h, List.filter_cons, ih]
    | insert => simp [wordOrigView, wordEqualTexts, ih]

theorem wordCorrView_equalTexts (ds : List Diff) (i : Nat) :
    ((wordCorrView ds i).filter (fun r => r.type = DiffType.equal)).map (fun r => r.text)
      = wordEqualTexts ds := by
  induction ds generalizing i with
  | nil => rfl
  | cons d ds ih =>
    obtain ⟨op, t⟩ := d
    cases op with
    | equal =>
      by_cases h : (displayText t).isEmpty <;>
        simp [wordCorrView, wordEqualTexts, h, List.filter_cons, ih]
    | insert =>
      by_cases h : (displayText t).isEmpty <;>
        simp [wordCorrView, wordEqualTexts, h, List.filter_cons, ih]
    | delete => simp [wordCorrView, wordEqualTexts, ih]

/-- Claim C10: equal spans are mirrored across views. For createTextDiff
and getWordDiff, the equal spans of the original-side view and the equal
spans of the corrected-side view carry the same texts in the same order
(hence the two subsequences have the same length; only offsets differ). -/
theorem equal_spans_mirrored (a b : List Char) :
    (((createTextDiff a b).original.filter
        (fun r => r.type = DiffType.equal)).map (fun r => r.text)
      = ((createTextDiff a b).corrected.filter
        (fun r => r.type = DiffType.equal)).map (fun r => r.text)) ∧
    (((getWordDiff a b).original.filter
        (fun r => r.type = DiffType.equal)).map (fun r => r.text)
      = ((getWordDiff a b).corrected.filter
        (fun r => r.type = DiffType.equal)).map (fun r => r.text)) := by
  constructor
  · show ((origView (diff_main a b) 0).filter _).map _
        = ((corrView (diff_main a b) 0).filter _).map _
    rw [origView_equalTexts, corrView_equalTexts]
  · show ((wordOrigView _ 0).filter _).map _ = ((wordCorrView _ 0).filter _).map _
    rw [wordOrigView_equalTexts, wordCorrView_equalTexts]

end DiffUtils
